import Mathlib

/-
Verification of the fdringbuf SPSC ring buffer (src/ringbuf.rs) and its
fd-signalling wrapper (src/fdbuf.rs) against its natural-language
specification.

The shallow embedding merges the Rust `Sender`/`Receiver` pair into one
`RingState` record: the shared fields (`length`, the slot array `data`, the
atomic `count`) come from the Rust `Buf`, and `sendIndex` / `recvIndex` are
the two private `index` fields.  Each whole `send` / `recv` call is one
atomic step; sequences of interleaved calls are modelled by the `Reachable`
and `RunTo` relations below.  The fill closure passed to `Sender::send`
writes through a raw out-pointer and returns the number `n` of slots it
initialised; in the embedding it returns `(n, vals)` where `vals` lists the
values it wrote to the leading slots of the offered segment.  A failed
`assert!` (process abort) is modelled as `none`.
-/

set_option maxHeartbeats 1000000

namespace Fdringbuf

/-- Combined state of one ring-buffer channel: `length` is the capacity `N`
(`Buf.length` in the source), `data` the slot array, `count` the shared
atomic counter, and `sendIndex` / `recvIndex` the private indices of the
`Sender` and the `Receiver`. -/
structure RingState (T : Type) where
  length : Nat
  data : List T
  count : Nat
  sendIndex : Nat
  recvIndex : Nat
deriving Repr, DecidableEq

/-- Overwrite `w.length` slots of `d` starting at position `idx`
(the effect of the fill closure writing through the slice
`&mut data[idx .. idx + w.length]`). -/
def writeAt {T : Type} (d : List T) (idx : Nat) (w : List T) : List T :=
  d.take idx ++ w ++ d.drop (idx + w.length)

/-- Length of the slice offered to the fill closure in `Sender::send`:
`cmp::min(l - self.index, l - cb)` in the source. -/
def slotCountOf {T : Type} (s : RingState T) : Nat :=
  min (s.length - s.sendIndex) (s.length - s.count)

/-- The `(n, written values)` produced by the fill closure inside
`Sender::send`: `if slice.len() == 0 { 0 } else { f(...) }`.  The closure is
not invoked when the offered slice is empty. -/
def sendN {T : Type} (f : Nat → Nat × List T) (s : RingState T) : Nat × List T :=
  if slotCountOf s = 0 then (0, []) else f (slotCountOf s)

/-- State update and return value of `Sender::send` once the closure has
returned `n`: write the values, `fetch_add(n)` on the counter, advance the
private index modulo `l`, and return `(l - c - n, c == 0 && n > 0)`. -/
def sendApply {T : Type} (s : RingState T) (n : Nat) (w : List T) :
    RingState T × Nat × Bool :=
  ({ s with data := writeAt s.data s.sendIndex (w.take n),
            count := s.count + n,
            sendIndex := (s.sendIndex + n) % s.length },
   s.length - s.count - n, (s.count == 0) && decide (0 < n))

/-- `Sender::send`.  `none` models the process abort of
`assert!(n <= slice.len())`. -/
def sendCore {T : Type} (f : Nat → Nat × List T) (s : RingState T) :
    Option (RingState T × Nat × Bool) :=
  if (sendN f s).1 ≤ slotCountOf s then
    some (sendApply s (sendN f s).1 (sendN f s).2)
  else none

/-- The read-only slice handed to the drain closure in `Receiver::recv`:
`&data[self.index .. cmp::min(self.index + cb, l)]`. -/
def recvSlice {T : Type} (s : RingState T) : List T :=
  (s.data.take (min (s.recvIndex + s.count) s.length)).drop s.recvIndex

/-- The `n` returned by the drain closure inside `Receiver::recv`:
`if slice.len() == 0 { 0 } else { f(slice) }`. -/
def recvN {T : Type} (f : List T → Nat) (s : RingState T) : Nat :=
  if (recvSlice s).length = 0 then 0 else f (recvSlice s)

/-- State update and return value of `Receiver::recv` once the closure has
returned `n`: `fetch_sub(n)`, advance the private index modulo `l`, and
return `(c - n, c >= l && n > 0)`. -/
def recvApply {T : Type} (s : RingState T) (n : Nat) :
    RingState T × Nat × Bool :=
  ({ s with count := s.count - n,
            recvIndex := (s.recvIndex + n) % s.length },
   s.count - n, decide (s.length ≤ s.count) && decide (0 < n))

/-- `Receiver::recv`.  `none` models the process abort of
`assert!(n <= slice.len())`. -/
def recvCore {T : Type} (f : List T → Nat) (s : RingState T) :
    Option (RingState T × Nat × Bool) :=
  if recvN f s ≤ (recvSlice s).length then some (recvApply s (recvN f s))
  else none

/-- The while loop inside the closure of `ringbuf::Sender::send_foreach`:
`while i < c && i < count { ptr::write(p.offset(i), f(i)); i += 1 }`.
The first argument of the recursion is `limit - i`, so the loop condition
`i < limit` becomes the fuel pattern `rem + 1`; `acc` accumulates the
values written at offsets `0, 1, …` of the offered segment and the result
is `(i, acc)`. -/
def foreachLoop {T : Type} (f : Nat → T) (c : Nat) :
    Nat → Nat → List T → Nat × List T
  | rem + 1, i, acc =>
    if i < c then foreachLoop f c rem (i + 1) (acc ++ [f i]) else (i, acc)
  | 0, i, acc => (i, acc)

/-- `ringbuf::Sender::send_foreach`: a single `self.send` call whose closure
runs the while loop above. -/
def send_foreach {T : Type} (limit : Nat) (f : Nat → T) (s : RingState T) :
    Option (RingState T × Nat × Bool) :=
  sendCore (fun c => foreachLoop f c limit 0 []) s

/-- `ringbuf::Sender::write_count`: `l - count` (relaxed load). -/
def write_count {T : Type} (s : RingState T) : Nat := s.length - s.count

/-- `ringbuf::Receiver::read_count`: `count` (relaxed load). -/
def read_count {T : Type} (s : RingState T) : Nat := s.count

/-- `ringbuf::channel_bufsize::<T>(capacity)`:
`capacity * size_of::<T>() + size_of::<AtomicUsize>()`, parametrised by the
two platform sizes. -/
def channel_bufsize (sizeOfT sizeOfAtomic capacity : Nat) : Nat :=
  capacity * sizeOfT + sizeOfAtomic

/-- `ringbuf::channel::<T>` construction, reduced to its arithmetic on the
buffer length: requires `size_of::<AtomicUsize>() + size_of::<T>() <= len`
(otherwise the `assert!` panics and no endpoint pair exists, modelled as
`none`) and yields `(N, count, sendIndex, recvIndex)` with
`N = (len - size_of::<AtomicUsize>()) / size_of::<T>()`, the counter stored
as `0` and both private indices `0`. -/
def channelMk (sizeOfT sizeOfAtomic bufLen : Nat) :
    Option (Nat × Nat × Nat × Nat) :=
  if sizeOfAtomic + sizeOfT ≤ bufLen then
    some ((bufLen - sizeOfAtomic) / sizeOfT, 0, 0, 0)
  else none

/-- A descriptor pair as in `fdbuf::Pipe` (for an eventfd both fields carry
the same number). -/
structure Pipe where
  reader : Int
  writer : Int
deriving Repr, DecidableEq

/-- `fdbuf::Sender`: the inner ring endpoint plus the two raw descriptors. -/
structure FdSender (T : Type) where
  inner : RingState T
  signal_fd : Int
  wait_fd : Int

/-- `fdbuf::Receiver`: the inner ring endpoint plus the two raw descriptors. -/
structure FdReceiver (T : Type) where
  inner : RingState T
  signal_fd : Int
  wait_fd : Int

/-- `fdbuf::channel(mem, empty, full)`: builds the pair from the ring state
`s0` that `ringbuf::channel(mem)` produced, wiring
`Sender { signal_fd: empty.writer, wait_fd: full.reader }` and
`Receiver { signal_fd: full.writer, wait_fd: empty.reader }`.  The wrapper
stores nothing else about the descriptors and never closes them (the source
has no `Drop` impl). -/
def fdChannel {T : Type} (s0 : RingState T) (empty full : Pipe) :
    FdSender T × FdReceiver T :=
  ({ inner := s0, signal_fd := empty.writer, wait_fd := full.reader },
   { inner := s0, signal_fd := full.writer, wait_fd := empty.reader })

/-- `fdbuf::Sender::wait_status`: `(self.wait_fd, self.inner.write_count())`. -/
def senderWaitStatus {T : Type} (x : FdSender T) : Int × Nat :=
  (x.wait_fd, write_count x.inner)

/-- `fdbuf::Receiver::wait_status`: `(self.wait_fd, self.inner.read_count())`. -/
def receiverWaitStatus {T : Type} (x : FdReceiver T) : Int × Nat :=
  (x.wait_fd, read_count x.inner)

/-- One pass of the loop in `fdbuf::Sender::send`: an `inner.send` whose
closure runs the user closure `f` (which is an `FnMut`, modelled with an
explicit closure state `st`) and records `(rr, repeat)`.  The result carries
the updated closure state, the `repeat` flag, the number `rr` written this
pass, and the `inner.send` results.  When the offered slice is empty the
user closure is not invoked, so `st` and `repeat` keep their values from
the start of the pass (`repeat` was reset to `false`). -/
def fdSendPass {T σ : Type} (f : σ → Nat → σ × Nat × List T × Bool) (st : σ)
    (s : RingState T) : Option (σ × Bool × Nat × RingState T × Nat × Bool) :=
  match sendCore (fun c => ((f st c).2.1, (f st c).2.2.1)) s with
  | none => none
  | some (s2, ll, wempty) =>
    some (if slotCountOf s = 0 then st else (f st (slotCountOf s)).1,
          if slotCountOf s = 0 then false else (f st (slotCountOf s)).2.2.2,
          if slotCountOf s = 0 then 0 else (f st (slotCountOf s)).2.1,
          s2, ll, wempty)

/-- The `loop` of `fdbuf::Sender::send`, with accumulators `r` (total items
written) and `we` (`was_empty`).  `fuel` bounds the number of passes; `none`
means either an aborted pass or fuel exhaustion (the Rust loop not having
terminated within `fuel` passes). -/
def fdSendLoop {T σ : Type} (f : σ → Nat → σ × Nat × List T × Bool) :
    Nat → σ → RingState T → Nat → Bool → Option (σ × RingState T × Nat × Nat × Bool)
  | 0, _, _, _, _ => none
  | fuel + 1, st, s, r, we =>
    match fdSendPass f st s with
    | none => none
    | some (st2, rep, rr, s2, ll, wempty) =>
      if rep then fdSendLoop f fuel st2 s2 (r + rr) (we || wempty)
      else some (st2, s2, ll, r + rr, we || wempty)

/-- `fdbuf::Sender::send`: run the loop, then
`if r > 0 && was_empty { write_fd(self.signal_fd) }` — the token count
(`0` or `1`) replaces the actual descriptor write — and return `Ok(last)`. -/
def fdSend {T σ : Type} (fuel : Nat) (f : σ → Nat → σ × Nat × List T × Bool)
    (st : σ) (s : RingState T) : Option (σ × RingState T × Nat × Nat) :=
  match fdSendLoop f fuel st s 0 false with
  | none => none
  | some (st2, s2, last, r, we) =>
    some (st2, s2, last, if decide (0 < r) && we then 1 else 0)

/-- One pass of the loop in `fdbuf::Receiver::recv`, mirroring
`fdSendPass`: an `inner.recv` whose closure runs the user closure `g` and
records `(rr, repeat)`. -/
def fdRecvPass {T σ : Type} (g : σ → List T → σ × Nat × Bool) (st : σ)
    (s : RingState T) : Option (σ × Bool × Nat × RingState T × Nat × Bool) :=
  match recvCore (fun sl => (g st sl).2.1) s with
  | none => none
  | some (s2, ll, wfull) =>
    some (if (recvSlice s).length = 0 then st else (g st (recvSlice s)).1,
          if (recvSlice s).length = 0 then false else (g st (recvSlice s)).2.2,
          if (recvSlice s).length = 0 then 0 else (g st (recvSlice s)).2.1,
          s2, ll, wfull)

/-- The `loop` of `fdbuf::Receiver::recv`, with accumulators `r` (total
items consumed) and `wf` (`was_full`). -/
def fdRecvLoop {T σ : Type} (g : σ → List T → σ × Nat × Bool) :
    Nat → σ → RingState T → Nat → Bool → Option (σ × RingState T × Nat × Nat × Bool)
  | 0, _, _, _, _ => none
  | fuel + 1, st, s, r, wf =>
    match fdRecvPass g st s with
    | none => none
    | some (st2, rep, rr, s2, ll, wfull) =>
      if rep then fdRecvLoop g fuel st2 s2 (r + rr) (wf || wfull)
      else some (st2, s2, ll, r + rr, wf || wfull)

/-- `fdbuf::Receiver::recv`: run the loop, then
`if r > 0 && was_full { write_fd(self.signal_fd) }` and return `Ok(last)`. -/
def fdRecv {T σ : Type} (fuel : Nat) (g : σ → List T → σ × Nat × Bool)
    (st : σ) (s : RingState T) : Option (σ × RingState T × Nat × Nat) :=
  match fdRecvLoop g fuel st s 0 false with
  | none => none
  | some (st2, s2, last, r, wf) =>
    some (st2, s2, last, if decide (0 < r) && wf then 1 else 0)

/-- The structural invariant of a channel pair of capacity `n`: both private
indices live in `[0, n)`, the counter is bounded by `n`, the slot array has
`n` slots, and the gap equation ties the three cursors together. -/
def Inv {T : Type} (n : Nat) (s : RingState T) : Prop :=
  s.length = n ∧ s.data.length = n ∧ s.count ≤ n ∧
  s.sendIndex < n ∧ s.recvIndex < n ∧
  (s.recvIndex + s.count) % n = s.sendIndex

/-- States reachable from a freshly constructed channel of capacity `n`
by any interleaving of successful `send` and `recv` calls. -/
inductive Reachable {T : Type} (n : Nat) : RingState T → Prop
  | init (data : List T) (hd : data.length = n) (hn : 0 < n) :
      Reachable n (RingState.mk n data 0 0 0)
  | send (f : Nat → Nat × List T) (s s' : RingState T) (ll : Nat) (b : Bool)
      (hr : Reachable n s) (hs : sendCore f s = some (s', ll, b)) :
      Reachable n s'
  | recv (f : List T → Nat) (s s' : RingState T) (ll : Nat) (b : Bool)
      (hr : Reachable n s) (hs : recvCore f s = some (s', ll, b)) :
      Reachable n s'

/-- The values a fill closure submits in one `send` call: the first
`n` values it wrote, where `n` is the number it returned. -/
def sentVals {T : Type} (f : Nat → Nat × List T) (s : RingState T) : List T :=
  (sendN f s).2.take (sendN f s).1

/-- The values a drain closure consumes in one `recv` call: the first `n`
elements of the slice it was shown, where `n` is the number it returned. -/
def recvdVals {T : Type} (f : List T → Nat) (s : RingState T) : List T :=
  (recvSlice s).take (recvN f s)

/-- Runs of a channel of capacity `n` that record, besides the reached
state, the list `P` of all values successfully submitted by the producer
and the list `C` of all values consumed by the consumer.  The hypothesis
`hv` on a send step is the closure contract of the claim: the closure
actually wrote the `n` values it counted. -/
inductive RunTo {T : Type} (n : Nat) : RingState T → List T → List T → Prop
  | init (data : List T) (hd : data.length = n) (hn : 0 < n) :
      RunTo n (RingState.mk n data 0 0 0) [] []
  | send (f : Nat → Nat × List T) (s s' : RingState T) (ll : Nat) (b : Bool)
      (P C : List T) (hr : RunTo n s P C)
      (hv : (sendN f s).1 ≤ (sendN f s).2.length)
      (hs : sendCore f s = some (s', ll, b)) :
      RunTo n s' (P ++ sentVals f s) C
  | recv (f : List T → Nat) (s s' : RingState T) (ll : Nat) (b : Bool)
      (P C : List T) (hr : RunTo n s P C)
      (hs : recvCore f s = some (s', ll, b)) :
      RunTo n s' P (C ++ recvdVals f s)

/-- The logically live content of the ring: the `count` values starting at
`recvIndex`, wrapping modulo `length`. -/
def liveList {T : Type} [Inhabited T] (s : RingState T) : List T :=
  (List.range s.count).map
    (fun i => s.data.getD ((s.recvIndex + i) % s.length) default)

theorem sendCore_eq_some {T : Type} {f : Nat → Nat × List T} {s : RingState T}
    {r : RingState T × Nat × Bool} (h : sendCore f s = some r) :
    (sendN f s).1 ≤ slotCountOf s ∧ r = sendApply s (sendN f s).1 (sendN f s).2 := by
  by_cases hc : (sendN f s).1 ≤ slotCountOf s
  · refine ⟨hc, ?_⟩
    unfold sendCore at h
    rw [if_pos hc] at h
    exact (Option.some.inj h).symm
  · unfold sendCore at h
    rw [if_neg hc] at h
    cases h

theorem recvCore_eq_some {T : Type} {f : List T → Nat} {s : RingState T}
    {r : RingState T × Nat × Bool} (h : recvCore f s = some r) :
    recvN f s ≤ (recvSlice s).length ∧ r = recvApply s (recvN f s) := by
  by_cases hc : recvN f s ≤ (recvSlice s).length
  · refine ⟨hc, ?_⟩
    unfold recvCore at h
    rw [if_pos hc] at h
    exact (Option.some.inj h).symm
  · unfold recvCore at h
    rw [if_neg hc] at h
    cases h

theorem recvSlice_length_le {T : Type} (s : RingState T) :
    (recvSlice s).length ≤ s.count := by
  simp only [recvSlice, List.length_drop, List.length_take]
  omega

/-- C2.  A `Sender::send` call whose closure is actually invoked is offered
exactly `slot_count = min (N - write_index) (N - count_before)` slots; when
the closure returns `n ≤ slot_count` (having written `vals`), the write
index advances by `n` modulo `N`, the counter grows by `n`, and the call
returns `(N - count_after, count_before == 0 && n > 0)`. -/
theorem send_contract {T : Type} (f : Nat → Nat × List T) (s : RingState T)
    (n : Nat) (vals : List T)
    (hsc : slotCountOf s ≠ 0)
    (hf : f (slotCountOf s) = (n, vals))
    (hn : n ≤ slotCountOf s) :
    slotCountOf s = min (s.length - s.sendIndex) (s.length - s.count) ∧
    sendCore f s = some
      ({ s with data := writeAt s.data s.sendIndex (vals.take n),
                count := s.count + n,
                sendIndex := (s.sendIndex + n) % s.length },
       s.length - (s.count + n),
       (s.count == 0) && decide (0 < n)) := by
  have h1 : sendN f s = (n, vals) := by
    unfold sendN
    rw [if_neg hsc, hf]
  refine ⟨rfl, ?_⟩
  unfold sendCore
  rw [h1]
  simp only [hn, if_pos]
  unfold sendApply
  rw [Nat.sub_sub]

/-- Closed-form instance of `send_contract` at a concrete channel state. -/
theorem send_contract_witness :
    sendCore (fun _ => (2, [4, 5])) (RingState.mk 3 [9, 9, 9] 1 1 0) =
      some (RingState.mk 3 [9, 4, 5] 3 0 0, 0, false) :=
  (send_contract (fun _ => (2, [4, 5])) (RingState.mk 3 [9, 9, 9] 1 1 0)
    2 [4, 5] (by decide) rfl (by decide)).2

/-- C3.  A `Receiver::recv` call shows its closure a read-only slice of
length `min (N - read_index) count_before`; when the closure (actually
invoked) returns `n ≤ slice.len()`, the read index advances by `n` modulo
`N`, the counter shrinks by `n`, and the call returns
`(count_after, count_before >= N && n > 0)`. -/
theorem recv_contract {T : Type} (f : List T → Nat) (s : RingState T)
    (n : Nat)
    (hd : s.data.length = s.length)
    (hne : recvSlice s ≠ [])
    (hf : f (recvSlice s) = n)
    (hn : n ≤ (recvSlice s).length) :
    (recvSlice s).length = min (s.length - s.recvIndex) s.count ∧
    recvCore f s = some
      ({ s with count := s.count - n,
                recvIndex := (s.recvIndex + n) % s.length },
       s.count - n, decide (s.length ≤ s.count) && decide (0 < n)) := by
  have hlen : (recvSlice s).length ≠ 0 := by
    intro h0
    exact hne (List.eq_nil_of_length_eq_zero h0)
  have h1 : recvN f s = n := by
    unfold recvN
    rw [if_neg hlen, hf]
  refine ⟨?_, ?_⟩
  · simp only [recvSlice, List.length_drop, List.length_take, hd]
    omega
  · unfold recvCore
    rw [h1, if_pos hn]
    rfl

/-- Closed-form instance of `recv_contract` at a concrete channel state. -/
theorem recv_contract_witness :
    recvCore (fun _ => 1) (RingState.mk 3 [9, 4, 5] 2 0 1) =
      some (RingState.mk 3 [9, 4, 5] 1 0 2, 1, false) :=
  (recv_contract (fun _ => 1) (RingState.mk 3 [9, 4, 5] 2 0 1) 1
    rfl (by decide) rfl (by decide)).2

/-- C7.  `Sender::send` on a full ring offers zero slots, never invokes the
fill closure (its result does not depend on the closure) and returns
`(0, false)` with the state unchanged; `Receiver::recv` on an empty ring
likewise never invokes the drain closure and returns `(0, false)` with the
state unchanged. -/
theorem full_empty_noop {T : Type} (f g : Nat → Nat × List T)
    (f2 g2 : List T → Nat) (s t : RingState T)
    (hsfull : s.count = s.length) (hsidx : s.sendIndex < s.length)
    (htempty : t.count = 0) (htidx : t.recvIndex < t.length)
    (htd : t.data.length = t.length) :
    sendCore f s = some (s, 0, false) ∧ sendCore f s = sendCore g s ∧
    recvCore f2 t = some (t, 0, false) ∧ recvCore f2 t = recvCore g2 t := by
  obtain ⟨l, d, c, si, ri⟩ := s
  obtain ⟨l2, d2, c2, si2, ri2⟩ := t
  subst htempty
  dsimp only at hsfull hsidx htidx htd
  have hsc : slotCountOf (RingState.mk l d c si ri) = 0 := by
    unfold slotCountOf
    dsimp only
    omega
  have hsend : ∀ h : Nat → Nat × List T,
      sendCore h (RingState.mk l d c si ri) =
        some (RingState.mk l d c si ri, 0, false) := by
    intro h
    unfold sendCore sendN sendApply writeAt
    simp [hsc, Nat.mod_eq_of_lt hsidx, show l - c = 0 from by omega]
  have hslice : recvSlice (RingState.mk l2 d2 0 si2 ri2) = [] := by
    apply List.eq_nil_of_length_eq_zero
    simp only [recvSlice, List.length_drop, List.length_take]
    omega
  have hrecv : ∀ h : List T → Nat,
      recvCore h (RingState.mk l2 d2 0 si2 ri2) =
        some (RingState.mk l2 d2 0 si2 ri2, 0, false) := by
    intro h
    unfold recvCore recvN recvApply
    simp [hslice, Nat.mod_eq_of_lt htidx]
  exact ⟨hsend f, (hsend f).trans (hsend g).symm, hrecv f2,
    (hrecv f2).trans (hrecv g2).symm⟩

/-- Closed-form instance of `full_empty_noop`. -/
theorem full_empty_noop_witness :
    sendCore (fun _ => (5, [1, 2])) (RingState.mk 2 [4, 5] 2 0 0) =
      some (RingState.mk 2 [4, 5] 2 0 0, 0, false) ∧
    recvCore (fun sl => sl.length + 3) (RingState.mk 2 [4, 5] 0 0 1) =
      some (RingState.mk 2 [4, 5] 0 0 1, 0, false) := by
  have h := full_empty_noop (fun _ => (5, [1, 2])) (fun _ => (0, []))
    (fun sl => sl.length + 3) (fun _ => 0)
    (RingState.mk 2 [4, 5] 2 0 0) (RingState.mk 2 [4, 5] 0 0 1)
    rfl (by decide) rfl (by decide) rfl
  exact ⟨h.1, h.2.2.1⟩

/-- C9.  If the closure inside `Sender::send` returns `n > slot_count`
(resp. the closure inside `Receiver::recv` returns `n > slice.len()`) the
core aborts via its assertion, modelled as `none`; when the closure result
respects the bound, the operation completes normally. -/
theorem contract_violation_aborts {T : Type} (f : Nat → Nat × List T)
    (g : List T → Nat) (s t : RingState T) :
    (slotCountOf s < (sendN f s).1 → sendCore f s = none) ∧
    ((sendN f s).1 ≤ slotCountOf s → (sendCore f s).isSome = true) ∧
    ((recvSlice t).length < recvN g t → recvCore g t = none) ∧
    (recvN g t ≤ (recvSlice t).length → (recvCore g t).isSome = true) := by
  refine ⟨fun h => ?_, fun h => ?_, fun h => ?_, fun h => ?_⟩
  · unfold sendCore
    rw [if_neg (by omega)]
  · unfold sendCore
    rw [if_pos h]
    rfl
  · unfold recvCore
    rw [if_neg (by omega)]
  · unfold recvCore
    rw [if_pos h]
    rfl

/-- Closed-form instance of `contract_violation_aborts`: a fill closure
answering `slot_count + 1` aborts, a drain closure answering
`slice.len() + 1` aborts, and conforming closures complete. -/
theorem contract_violation_aborts_witness :
    sendCore (fun c => (c + 1, [])) (RingState.mk 2 [0, 0] 0 0 0) = none ∧
    recvCore (fun sl => sl.length + 1) (RingState.mk 2 [4, 5] 2 0 0) = none ∧
    (sendCore (fun c => (c, [7, 7])) (RingState.mk 2 [0, 0] 0 0 0)).isSome = true ∧
    (recvCore (fun sl => sl.length) (RingState.mk 2 [4, 5] 2 0 0)).isSome = true := by
  have h1 := contract_violation_aborts (fun c => (c + 1, []))
    (fun sl => sl.length + 1) (RingState.mk 2 [(0 : Nat), 0] 0 0 0)
    (RingState.mk 2 [4, 5] 2 0 0)
  have h2 := contract_violation_aborts (fun c => (c, [7, 7]))
    (fun sl => sl.length) (RingState.mk 2 [(0 : Nat), 0] 0 0 0)
    (RingState.mk 2 [4, 5] 2 0 0)
  exact ⟨h1.1 (by decide), h1.2.2.1 (by decide),
    h2.2.1 (by decide), h2.2.2.2 (by decide)⟩

/-- C8 (amended).  For element sizes `>= 1`: `ringbuf::channel` succeeds
iff the buffer holds at least `size_of::<AtomicUsize>() + size_of::<T>()`
bytes (panicking with no endpoint pair otherwise), and on success yields
`N = (len - size_of::<AtomicUsize>()) / size_of::<T>()` with the counter
stored as `0` and both indices `0`; a buffer of exactly
`size_of::<AtomicUsize>() + size_of::<T>()` bytes gives `N = 1`, one byte
fewer fails, and for requested `capacity >= 1` a buffer of
`channel_bufsize (capacity)` bytes yields exactly `capacity`. -/
theorem channel_construction (sizeOfT sizeOfAtomic bufLen capacity : Nat)
    (hT : 0 < sizeOfT) :
    ((channelMk sizeOfT sizeOfAtomic bufLen).isSome = true ↔
      sizeOfAtomic + sizeOfT ≤ bufLen) ∧
    (sizeOfAtomic + sizeOfT ≤ bufLen →
      channelMk sizeOfT sizeOfAtomic bufLen =
        some ((bufLen - sizeOfAtomic) / sizeOfT, 0, 0, 0)) ∧
    channelMk sizeOfT sizeOfAtomic (sizeOfAtomic + sizeOfT) = some (1, 0, 0, 0) ∧
    channelMk sizeOfT sizeOfAtomic (sizeOfAtomic + sizeOfT - 1) = none ∧
    (0 < capacity →
      channelMk sizeOfT sizeOfAtomic
          (channel_bufsize sizeOfT sizeOfAtomic capacity) =
        some (capacity, 0, 0, 0)) := by
  refine ⟨?_, fun h => ?_, ?_, ?_, fun hcap => ?_⟩
  · unfold channelMk
    by_cases h : sizeOfAtomic + sizeOfT ≤ bufLen
    · rw [if_pos h]
      simpa using h
    · rw [if_neg h]
      simpa using h
  · unfold channelMk
    rw [if_pos h]
  · unfold channelMk
    rw [if_pos (Nat.le_refl _), Nat.add_sub_cancel_left, Nat.div_self hT]
  · unfold channelMk
    rw [if_neg (by omega)]
  · unfold channelMk channel_bufsize
    rw [if_pos (by have := Nat.le_mul_of_pos_left sizeOfT hcap; omega),
      Nat.add_sub_cancel, Nat.mul_div_cancel _ hT]

/-- Closed-form instance of `channel_construction` at
`size_of::<T>() = 2`, `size_of::<AtomicUsize>() = 8`, a 20-byte buffer and
requested capacity 3. -/
theorem channel_construction_witness :
    ((channelMk 2 8 20).isSome = true ↔ 8 + 2 ≤ 20) ∧
    (8 + 2 ≤ 20 → channelMk 2 8 20 = some ((20 - 8) / 2, 0, 0, 0)) ∧
    channelMk 2 8 (8 + 2) = some (1, 0, 0, 0) ∧
    channelMk 2 8 (8 + 2 - 1) = none ∧
    (0 < 3 → channelMk 2 8 (channel_bufsize 2 8 3) = some (3, 0, 0, 0)) :=
  channel_construction 2 8 20 3 (by decide)

/-- C8 counterexample: with requested capacity `0` (here at
`size_of::<T>() = 2`, `size_of::<AtomicUsize>() = 8`) a buffer of exactly
`channel_bufsize (0) = 8` bytes does not yield the requested capacity:
construction panics (`none`), because `8 < 8 + 2`. -/
theorem channel_bufsize_capacity_zero_cex :
    channelMk 2 8 (channel_bufsize 2 8 0) = none ∧ channel_bufsize 2 8 0 = 8 := by
  exact ⟨rfl, rfl⟩

/-- C10.  `fdbuf::channel(mem, empty, full)` wires the `Sender` to
`signal_fd = empty.writer`, `wait_fd = full.reader` and the `Receiver` to
`signal_fd = full.writer`, `wait_fd = empty.reader`; hence each endpoint's
signal descriptor and the descriptor the peer's `wait_status` reports
belong to the same pipe. -/
theorem fd_channel_wiring {T : Type} (s0 : RingState T) (e fl : Pipe) :
    (fdChannel s0 e fl).1.signal_fd = e.writer ∧
    (fdChannel s0 e fl).1.wait_fd = fl.reader ∧
    (fdChannel s0 e fl).2.signal_fd = fl.writer ∧
    (fdChannel s0 e fl).2.wait_fd = e.reader ∧
    (senderWaitStatus (fdChannel s0 e fl).1).1 = fl.reader ∧
    (receiverWaitStatus (fdChannel s0 e fl).2).1 = e.reader ∧
    (senderWaitStatus (fdChannel s0 e fl).1).2 = write_count s0 ∧
    (receiverWaitStatus (fdChannel s0 e fl).2).2 = read_count s0 :=
  ⟨rfl, rfl, rfl, rfl, rfl, rfl, rfl, rfl⟩

theorem foreachLoop_eq {T : Type} (f : Nat → T) (c : Nat) :
    ∀ (rem i : Nat) (acc : List T),
      foreachLoop f c rem i acc =
        (min (i + rem) (max i c),
         acc ++ (List.range' i (min (i + rem) (max i c) - i)).map f) := by
  intro rem
  induction rem with
  | zero =>
    intro i acc
    unfold foreachLoop
    have h1 : min (i + 0) (max i c) = i := by omega
    rw [h1, Nat.sub_self]
    simp
  | succ rem ih =>
    intro i acc
    unfold foreachLoop
    by_cases hic : i < c
    · rw [if_pos hic, ih (i + 1) (acc ++ [f i])]
      have h1 : min (i + 1 + rem) (max (i + 1) c) = min (i + (rem + 1)) (max i c) := by
        omega
      have h2 : i < min (i + (rem + 1)) (max i c) := by omega
      rw [h1]
      refine congrArg _ ?_
      rw [show min (i + (rem + 1)) (max i c) - i =
        (min (i + (rem + 1)) (max i c) - (i + 1)) + 1 from by omega]
      rw [List.range'_succ, List.map_cons, List.append_assoc]
      rfl
    · rw [if_neg hic]
      have h1 : min (i + (rem + 1)) (max i c) = i := by omega
      rw [h1, Nat.sub_self]
      simp

/-- C5 (amended).  The ring core's `Sender::send_foreach(limit, produce)`
performs exactly one `try_send` pass: it equals a single `sendCore` whose
closure writes `produce 0, …, produce (n-1)` with
`n = min slot_count limit`, and the number of slots it reports written
(equal to the number of `produce` invocations) is
`min slot_count limit`, where `slot_count = min (N - write_index)
(N - count)` is the single contiguous free segment — not the free capacity
across both segments of the ring. -/
theorem send_foreach_single_pass {T : Type} (limit : Nat) (f : Nat → T)
    (s : RingState T) :
    send_foreach limit f s =
      sendCore (fun c => (min c limit, (List.range (min c limit)).map f)) s ∧
    (sendN (fun c => foreachLoop f c limit 0 []) s).1 =
      min (slotCountOf s) limit := by
  have hclo : (fun c => foreachLoop f c limit 0 []) =
      fun c => (min c limit, (List.range (min c limit)).map f) := by
    funext c
    rw [foreachLoop_eq]
    have h1 : min (0 + limit) (max 0 c) = min c limit := by omega
    rw [h1, Nat.sub_zero, List.nil_append, List.range_eq_range']
  constructor
  · unfold send_foreach
    rw [hclo]
  · rw [hclo]
    unfold sendN
    by_cases h : slotCountOf s = 0
    · rw [if_pos h, h]
      simp
    · rw [if_neg h]

/-- C5 counterexample: at capacity `N = 3` with `write_index = N - 1 = 2`
and free capacity `3 ≥ 2` (two contiguous free segments of lengths 1 and
2), the ring core's `send_foreach` with limit 2 writes only the single
pre-wrap slot: one `produce` invocation, one item written (`count` becomes
1, not 2), so `produce` is not invoked `min (limit, free) = 2` times and
the two items are not written across the wrap. -/
theorem send_foreach_two_segment_cex :
    send_foreach 2 (fun i => i + 10) (RingState.mk 3 [0, 0, 0] 0 2 2) =
      some (RingState.mk 3 [0, 0, 10] 1 0 2, 2, true) ∧
    (sendN (fun c => foreachLoop (fun i => i + 10) c 2 0 [])
        (RingState.mk 3 [0, 0, 0] 0 2 2)).1 = 1 ∧
    (1 : Nat) ≠ min 2 (3 - 0) :=
  ⟨rfl, rfl, by decide⟩

theorem writeAt_length {T : Type} (d : List T) (idx : Nat) (w : List T)
    (h : idx + w.length ≤ d.length) : (writeAt d idx w).length = d.length := by
  simp only [writeAt, List.length_append, List.length_take, List.length_drop]
  omega

theorem inv_send {T : Type} {n : Nat} {f : Nat → Nat × List T}
    {s s' : RingState T} {ll : Nat} {b : Bool}
    (hInv : Inv n s) (h : sendCore f s = some (s', ll, b)) : Inv n s' := by
  obtain ⟨hle, hr⟩ := sendCore_eq_some h
  obtain ⟨h1, h2, h3, h4, h5, h6⟩ := hInv
  have hsc1 : slotCountOf s ≤ s.length - s.sendIndex := Nat.min_le_left _ _
  have hsc2 : slotCountOf s ≤ s.length - s.count := Nat.min_le_right _ _
  have hs' : s' = (sendApply s (sendN f s).1 (sendN f s).2).1 := congrArg Prod.fst hr
  rw [hs']
  unfold sendApply Inv
  dsimp only
  refine ⟨h1, ?_, ?_, ?_, h5, ?_⟩
  · rw [writeAt_length _ _ _ (by rw [List.length_take]; omega)]
    exact h2
  · omega
  · rw [h1]
    exact Nat.mod_lt _ (by omega)
  · rw [h1, ← h6, Nat.mod_add_mod, ← Nat.add_assoc]

theorem inv_recv {T : Type} {n : Nat} {f : List T → Nat}
    {s s' : RingState T} {ll : Nat} {b : Bool}
    (hInv : Inv n s) (h : recvCore f s = some (s', ll, b)) : Inv n s' := by
  obtain ⟨hle, hr⟩ := recvCore_eq_some h
  obtain ⟨h1, h2, h3, h4, h5, h6⟩ := hInv
  have hcnt : recvN f s ≤ s.count := le_trans hle (recvSlice_length_le s)
  have hs' : s' = (recvApply s (recvN f s)).1 := congrArg Prod.fst hr
  rw [hs']
  unfold recvApply Inv
  dsimp only
  refine ⟨h1, h2, ?_, h4, ?_, ?_⟩
  · omega
  · rw [h1]
    exact Nat.mod_lt _ (by omega)
  · rw [h1, Nat.mod_add_mod,
      show s.recvIndex + recvN f s + (s.count - recvN f s) =
        s.recvIndex + s.count from by omega, h6]

theorem reachable_inv {T : Type} {n : Nat} {s : RingState T}
    (h : Reachable n s) : Inv n s := by
  induction h with
  | init data hd hn => exact ⟨rfl, hd, Nat.zero_le _, hn, hn, by simp⟩
  | send f s s' ll b hr hs ih => exact inv_send ih hs
  | recv f s s' ll b hr hs ih => exact inv_recv ih hs

theorem runTo_inv {T : Type} {n : Nat} {s : RingState T} {P C : List T}
    (h : RunTo n s P C) : Inv n s := by
  induction h with
  | init data hd hn => exact ⟨rfl, hd, Nat.zero_le _, hn, hn, by simp⟩
  | send f s s' ll b P C hr hv hs ih => exact inv_send ih hs
  | recv f s s' ll b P C hr hs ih => exact inv_recv ih hs

/-- C1.  In every state reachable by interleaved `send` / `recv` calls on a
channel of capacity `n`, the shared counter satisfies `count <= n` (it is a
`Nat`, so `0 <= count` holds trivially), both private indices lie in
`[0, n)`, and the gap equation `(read_index + count) % n = write_index`
holds. -/
theorem ring_invariant_reachable {T : Type} {n : Nat} {s : RingState T}
    (h : Reachable n s) :
    s.count ≤ n ∧ s.sendIndex < n ∧ s.recvIndex < n ∧
    (s.recvIndex + s.count) % n = s.sendIndex := by
  obtain ⟨-, -, h3, h4, h5, h6⟩ := reachable_inv h
  exact ⟨h3, h4, h5, h6⟩

/-- Closed-form instance of `ring_invariant_reachable` after one concrete
send step on a freshly constructed capacity-2 channel. -/
theorem ring_invariant_reachable_witness :
    (RingState.mk 2 [7, 0] 1 1 0).count ≤ 2 ∧
    (RingState.mk 2 [7, 0] 1 1 0).sendIndex < 2 ∧
    (RingState.mk 2 [7, 0] 1 1 0).recvIndex < 2 ∧
    ((RingState.mk 2 [(7 : Nat), 0] 1 1 0).recvIndex +
        (RingState.mk 2 [(7 : Nat), 0] 1 1 0).count) % 2 =
      (RingState.mk 2 [(7 : Nat), 0] 1 1 0).sendIndex :=
  ring_invariant_reachable
    (Reachable.send (fun _ => (1, [7])) (RingState.mk 2 [0, 0] 0 0 0)
      (RingState.mk 2 [7, 0] 1 1 0) 1 true
      (Reachable.init [0, 0] rfl (by decide)) rfl)

theorem add_mod_inj {l a i j : Nat} (hi : i < l) (hj : j < l)
    (h : (a + i) % l = (a + j) % l) : i = j := by
  have h2 : i % l = j % l := Nat.ModEq.add_left_cancel' a h
  rwa [Nat.mod_eq_of_lt hi, Nat.mod_eq_of_lt hj] at h2

theorem map_getD_range {T : Type} [Inhabited T] (w : List T) :
    (List.range w.length).map (fun j => w.getD j default) = w := by
  apply List.ext_getElem (by simp)
  intro i h1 h2
  simp [List.getD_eq_getElem?_getD, List.getElem?_eq_getElem h2]

theorem writeAt_getD {T : Type} [Inhabited T] (d : List T) (idx : Nat)
    (w : List T) (j : Nat) (hw : idx + w.length ≤ d.length) :
    (writeAt d idx w).getD j default =
      if idx ≤ j ∧ j < idx + w.length then w.getD (j - idx) default
      else d.getD j default := by
  have htl : (d.take idx).length = idx := by
    rw [List.length_take]
    omega
  unfold writeAt
  simp only [List.getD_eq_getElem?_getD]
  by_cases h1 : j < idx
  · rw [if_neg (by omega)]
    rw [List.getElem?_append_left (by rw [List.length_append, htl]; omega),
      List.getElem?_append_left (by rw [htl]; omega),
      List.getElem?_take_of_lt h1]
  · by_cases h2 : j < idx + w.length
    · rw [if_pos (by omega)]
      rw [List.getElem?_append_left (by rw [List.length_append, htl]; omega),
        List.getElem?_append_right (by rw [htl]; omega), htl]
    · rw [if_neg (by omega)]
      rw [List.getElem?_append_right (by rw [List.length_append, htl]; omega),
        List.length_append, htl, List.getElem?_drop,
        show idx + w.length + (j - (idx + w.length)) = j from by omega]

theorem liveList_send {T : Type} [Inhabited T] {n : Nat}
    {f : Nat → Nat × List T} {s s' : RingState T} {ll : Nat} {b : Bool}
    (hInv : Inv n s)
    (hv : (sendN f s).1 ≤ (sendN f s).2.length)
    (hs : sendCore f s = some (s', ll, b)) :
    liveList s' = liveList s ++ sentVals f s := by
  obtain ⟨hle, hr⟩ := sendCore_eq_some hs
  obtain ⟨h1, h2, h3, h4, h5, h6⟩ := hInv
  subst h1
  have hsc1 : slotCountOf s ≤ s.length - s.sendIndex := Nat.min_le_left _ _
  have hsc2 : slotCountOf s ≤ s.length - s.count := Nat.min_le_right _ _
  have hwlen : ((sendN f s).2.take (sendN f s).1).length = (sendN f s).1 := by
    rw [List.length_take]
    omega
  have hkey : ∀ m, m < (sendN f s).1 →
      (s.recvIndex + (s.count + m)) % s.length = s.sendIndex + m := by
    intro m hm
    rw [← Nat.add_assoc, ← Nat.mod_add_mod, h6, Nat.mod_eq_of_lt (by omega)]
  have hs' : s' = (sendApply s (sendN f s).1 (sendN f s).2).1 := congrArg Prod.fst hr
  rw [hs']
  unfold sendApply liveList sentVals
  dsimp only
  rw [List.range_add, List.map_append, List.map_map]
  refine congrArg₂ (· ++ ·) ?_ ?_
  · apply List.map_congr_left
    intro i hi
    have hic : i < s.count := List.mem_range.mp hi
    rw [writeAt_getD _ _ _ _ (by rw [hwlen]; omega), if_neg]
    intro hcon
    have hk : (s.recvIndex + i) % s.length =
        s.sendIndex + ((s.recvIndex + i) % s.length - s.sendIndex) := by omega
    have hklt : (s.recvIndex + i) % s.length - s.sendIndex < (sendN f s).1 := by
      rw [hwlen] at hcon
      omega
    have := hkey _ hklt
    rw [← this] at hk
    have := add_mod_inj (l := s.length) (by omega)
      (by omega) hk
    omega
  · apply List.ext_getElem (by simp [hwlen])
    intro i hia hib
    simp only [List.getElem_map, List.getElem_range, Function.comp]
    rw [writeAt_getD _ _ _ _ (by rw [hwlen]; omega)]
    have hilt : i < (sendN f s).1 := by
      simpa using hia
    rw [hkey i hilt, if_pos (by rw [hwlen]; omega),
      show s.sendIndex + i - s.sendIndex = i from by omega,
      List.getD_eq_getElem?_getD, List.getElem?_eq_getElem (by omega)]
    rfl

theorem recvSlice_eq_take {T : Type} [Inhabited T] {n : Nat} {s : RingState T}
    (hInv : Inv n s) :
    recvSlice s = (liveList s).take ((recvSlice s).length) := by
  obtain ⟨h1, h2, h3, h4, h5, h6⟩ := hInv
  subst h1
  have hlen : (recvSlice s).length =
      min (min (s.recvIndex + s.count) s.length) s.data.length - s.recvIndex := by
    simp [recvSlice]
  apply List.ext_getElem?
  intro j
  by_cases hj : j < (recvSlice s).length
  · have hjc : j < s.count := lt_of_lt_of_le hj (recvSlice_length_le s)
    rw [List.getElem?_take_of_lt hj]
    unfold recvSlice liveList
    rw [List.getElem?_drop, List.getElem?_take_of_lt (by omega),
      List.getElem?_map, List.getElem?_range hjc, Option.map_some',
      Nat.mod_eq_of_lt (by omega), List.getD_eq_getElem?_getD,
      List.getElem?_eq_getElem (by omega)]
    rfl
  · rw [List.getElem?_len_le (by omega), List.getElem?_len_le]
    rw [List.length_take]
    have : (liveList s).length = s.count := by simp [liveList]
    omega

theorem liveList_recv {T : Type} [Inhabited T] {n : Nat} {f : List T → Nat}
    {s s' : RingState T} {ll : Nat} {b : Bool} (hInv : Inv n s)
    (hs : recvCore f s = some (s', ll, b)) :
    recvdVals f s = (liveList s).take (recvN f s) ∧
    liveList s' = (liveList s).drop (recvN f s) := by
  obtain ⟨hle, hr⟩ := recvCore_eq_some hs
  constructor
  · unfold recvdVals
    rw [recvSlice_eq_take hInv, List.take_take, Nat.min_eq_left hle]
  · have hcnt : recvN f s ≤ s.count := le_trans hle (recvSlice_length_le s)
    have hs' : s' = (recvApply s (recvN f s)).1 := congrArg Prod.fst hr
    rw [hs']
    unfold recvApply liveList
    dsimp only
    conv_rhs =>
      rw [show s.count = recvN f s + (s.count - recvN f s) from by omega]
    rw [List.range_add, List.map_append,
      List.drop_left' (by simp), List.map_map]
    apply List.map_congr_left
    intro i hi
    simp only [Function.comp]
    rw [Nat.mod_add_mod, Nat.add_assoc]

/-- C4.  FIFO round trip: along any run of interleaved successful `send` /
`recv` calls whose closures respect the contract, the sequence `P` of
values the producer submitted equals the sequence `C` the consumer
observed followed by the values still live in the ring — so the consumer
observes exactly the produced values, in order, with no duplication and no
loss. -/
theorem fifo_round_trip {T : Type} [Inhabited T] {n : Nat} {s : RingState T}
    {P C : List T} (h : RunTo n s P C) : P = C ++ liveList s := by
  induction h with
  | init data hd hn => simp [liveList]
  | send f s s' ll b P C hr hv hs ih =>
    rw [liveList_send (runTo_inv hr) hv hs, ih, List.append_assoc]
  | recv f s s' ll b P C hr hs ih =>
    obtain ⟨ht, hd⟩ := liveList_recv (runTo_inv hr) hs
    rw [ih, hd, ht, List.append_assoc, List.take_append_drop]

/-- Closed-form instance of `fifo_round_trip`: produce `[5, 6]`, consume
`[5]`, and the ring still holds `[6]`. -/
theorem fifo_round_trip_witness :
    ([5, 6] : List Nat) = [5] ++ liveList (RingState.mk 2 [5, 6] 1 0 1) :=
  fifo_round_trip
    (RunTo.recv (fun _ => 1) (RingState.mk 2 [5, 6] 2 0 0)
      (RingState.mk 2 [5, 6] 1 0 1) 1 true [5, 6] []
      (RunTo.send (fun _ => (2, [5, 6])) (RingState.mk 2 [0, 0] 0 0 0)
        (RingState.mk 2 [5, 6] 2 0 0) 0 true [] []
        (RunTo.init [0, 0] rfl (by decide)) (by decide) (by decide))
      (by decide))

theorem fdSendPass_eq_some {T σ : Type} {f : σ → Nat → σ × Nat × List T × Bool}
    {st : σ} {s : RingState T} {st2 : σ} {rep : Bool} {rr : Nat}
    {s2 : RingState T} {ll : Nat} {wempty : Bool}
    (h : fdSendPass f st s = some (st2, rep, rr, s2, ll, wempty)) :
    s2.count = s.count + rr ∧ s2.length = s.length ∧
    (wempty = true ↔ (s.count = 0 ∧ 0 < rr)) := by
  unfold fdSendPass at h
  cases hsc : sendCore (fun c => ((f st c).2.1, (f st c).2.2.1)) s with
  | none =>
    rw [hsc] at h
    cases h
  | some val =>
    rw [hsc] at h
    obtain ⟨vs, vll, vwe⟩ := val
    obtain ⟨hle, hval⟩ := sendCore_eq_some hsc
    dsimp only at h
    simp only [Option.some.injEq, Prod.mk.injEq] at h
    obtain ⟨-, -, hC, hs2, -, hwe⟩ := h
    have hrr : rr = (sendN (fun c => ((f st c).2.1, (f st c).2.2.1)) s).1 := by
      rw [← hC]
      unfold sendN
      by_cases hz : slotCountOf s = 0 <;> simp [hz]
    unfold sendApply at hval
    simp only [Prod.mk.injEq] at hval
    obtain ⟨hvs, -, hvwe⟩ := hval
    rw [← hs2, hvs, ← hrr]
    refine ⟨rfl, rfl, ?_⟩
    rw [← hwe, hvwe, ← hrr]
    simp

theorem fdRecvPass_eq_some {T σ : Type} {g : σ → List T → σ × Nat × Bool}
    {st : σ} {s : RingState T} {st2 : σ} {rep : Bool} {rr : Nat}
    {s2 : RingState T} {ll : Nat} {wfull : Bool}
    (h : fdRecvPass g st s = some (st2, rep, rr, s2, ll, wfull)) :
    s2.count = s.count - rr ∧ rr ≤ s.count ∧ s2.length = s.length ∧
    (wfull = true ↔ (s.length ≤ s.count ∧ 0 < rr)) := by
  unfold fdRecvPass at h
  cases hsc : recvCore (fun sl => (g st sl).2.1) s with
  | none =>
    rw [hsc] at h
    cases h
  | some val =>
    rw [hsc] at h
    obtain ⟨vs, vll, vwf⟩ := val
    obtain ⟨hle, hval⟩ := recvCore_eq_some hsc
    dsimp only at h
    simp only [Option.some.injEq, Prod.mk.injEq] at h
    obtain ⟨-, -, hC, hs2, -, hwf⟩ := h
    have hrr : rr = recvN (fun sl => (g st sl).2.1) s := by
      rw [← hC]
      unfold recvN
      by_cases hz : (recvSlice s).length = 0 <;> simp [hz]
    have hcnt : rr ≤ s.count := by
      rw [hrr]
      exact le_trans hle (recvSlice_length_le s)
    unfold recvApply at hval
    simp only [Prod.mk.injEq] at hval
    obtain ⟨hvs, -, hvwf⟩ := hval
    rw [← hs2, hvs, ← hrr]
    refine ⟨rfl, hcnt, rfl, ?_⟩
    rw [← hwf, hvwf, ← hrr]
    simp

theorem fdSendLoop_spec {T σ : Type} (f : σ → Nat → σ × Nat × List T × Bool) :
    ∀ (fuel : Nat) (st : σ) (s : RingState T) (r : Nat) (we : Bool)
      (st2 : σ) (s2 : RingState T) (ll r2 : Nat) (we2 : Bool),
      fdSendLoop f fuel st s r we = some (st2, s2, ll, r2, we2) →
      r ≤ r2 ∧ s2.count = s.count + (r2 - r) ∧
      (we2 = true ↔ (we = true ∨ (s.count = 0 ∧ r < r2))) := by
  intro fuel
  induction fuel with
  | zero =>
    intro st s r we st2 s2 ll r2 we2 h
    exact absurd h (by unfold fdSendLoop; simp)
  | succ fuel ih =>
    intro st s r we st2 s2 ll r2 we2 h
    unfold fdSendLoop at h
    cases hp : fdSendPass f st s with
    | none =>
      rw [hp] at h
      cases h
    | some out =>
      rw [hp] at h
      obtain ⟨pst, prep, prr, ps, pll, pwe⟩ := out
      obtain ⟨hc, hl, hw⟩ := fdSendPass_eq_some hp
      dsimp only at h
      by_cases hrep : prep = true
      · rw [if_pos hrep] at h
        obtain ⟨ih1, ih2, ih3⟩ := ih pst ps (r + prr) (we || pwe) st2 s2 ll r2 we2 h
        refine ⟨by omega, by omega, ?_⟩
        rw [ih3, Bool.or_eq_true, hw, hc]
        by_cases hwe : we = true
        · simp [hwe]
        · simp only [hwe, Bool.false_eq_true, false_or]
          omega
      · rw [if_neg hrep] at h
        simp only [Option.some.injEq, Prod.mk.injEq] at h
        obtain ⟨-, h2, -, h4, h5⟩ := h
        refine ⟨by omega, by rw [← h2]; omega, ?_⟩
        rw [← h5, Bool.or_eq_true, hw]
        by_cases hwe : we = true
        · simp [hwe]
        · simp only [hwe, Bool.false_eq_true, false_or]
          omega

theorem fdRecvLoop_spec {T σ : Type} (g : σ → List T → σ × Nat × Bool) :
    ∀ (fuel : Nat) (st : σ) (s : RingState T) (r : Nat) (wf : Bool)
      (st2 : σ) (s2 : RingState T) (ll r2 : Nat) (wf2 : Bool),
      fdRecvLoop g fuel st s r wf = some (st2, s2, ll, r2, wf2) →
      r ≤ r2 ∧ r2 - r ≤ s.count ∧ s2.count = s.count - (r2 - r) ∧
      s2.length = s.length ∧
      (wf2 = true ↔ (wf = true ∨ (s.length ≤ s.count ∧ r < r2))) := by
  intro fuel
  induction fuel with
  | zero =>
    intro st s r wf st2 s2 ll r2 wf2 h
    exact absurd h (by unfold fdRecvLoop; simp)
  | succ fuel ih =>
    intro st s r wf st2 s2 ll r2 wf2 h
    unfold fdRecvLoop at h
    cases hp : fdRecvPass g st s with
    | none =>
      rw [hp] at h
      cases h
    | some out =>
      rw [hp] at h
      obtain ⟨pst, prep, prr, ps, pll, pwf⟩ := out
      obtain ⟨hc, hpr, hl, hw⟩ := fdRecvPass_eq_some hp
      dsimp only at h
      by_cases hrep : prep = true
      · rw [if_pos hrep] at h
        obtain ⟨ih1, ih2, ih3, ih4, ih5⟩ :=
          ih pst ps (r + prr) (wf || pwf) st2 s2 ll r2 wf2 h
        refine ⟨by omega, by omega, by omega, by rw [ih4, hl], ?_⟩
        rw [ih5, Bool.or_eq_true, hw, hc, hl]
        by_cases hwf : wf = true
        · simp [hwf]
        · simp only [hwf, Bool.false_eq_true, false_or]
          omega
      · rw [if_neg hrep] at h
        simp only [Option.some.injEq, Prod.mk.injEq] at h
        obtain ⟨-, h2, -, h4, h5⟩ := h
        refine ⟨by omega, by omega, by rw [← h2]; omega, by rw [← h2, hl], ?_⟩
        rw [← h5, Bool.or_eq_true, hw]
        by_cases hwf : wf = true
        · simp [hwf]
        · simp only [hwf, Bool.false_eq_true, false_or]
          omega

/-- C6.  In the signalling wrapper, `fdbuf::Sender::send` writes exactly
one token to its `signal_fd` when some slot was filled across the passes
and the call began on an empty ring (the empty-to-non-empty transition),
and no token otherwise; symmetrically `fdbuf::Receiver::recv` writes
exactly one token when data was consumed and the call began on a full ring
(count = N).  Hence at most one token per call and none on calls without a
transition. -/
theorem fd_token_iff_transition {T σ τ : Type} (fuel gfuel : Nat)
    (f : σ → Nat → σ × Nat × List T × Bool) (g : τ → List T → τ × Nat × Bool)
    (st : σ) (rt : τ) (s r : RingState T) (st2 : σ) (rt2 : τ)
    (s2 r2 : RingState T) (la lb ta tb : Nat) :
    (fdSend fuel f st s = some (st2, s2, la, ta) →
      ta ≤ 1 ∧ (ta = 1 ↔ (s.count = 0 ∧ s.count < s2.count))) ∧
    (r.count ≤ r.length → fdRecv gfuel g rt r = some (rt2, r2, lb, tb) →
      tb ≤ 1 ∧ (tb = 1 ↔ (r.count = r.length ∧ r2.count < r.count))) := by
  constructor
  · intro h
    unfold fdSend at h
    cases hl : fdSendLoop f fuel st s 0 false with
    | none =>
      rw [hl] at h
      cases h
    | some out =>
      rw [hl] at h
      obtain ⟨ost, os, oll, or2, owe⟩ := out
      obtain ⟨h1, h2, h3⟩ := fdSendLoop_spec f fuel st s 0 false ost os oll or2 owe hl
      dsimp only at h
      simp only [Option.some.injEq, Prod.mk.injEq] at h
      obtain ⟨-, hb, -, hd⟩ := h
      constructor
      · rw [← hd]
        split <;> omega
      · rw [← hd, ← hb]
        simp only [Bool.false_eq_true, false_or] at h3
        by_cases hcond : (decide (0 < or2) && owe) = true
        · rw [if_pos hcond]
          simp only [Bool.and_eq_true, decide_eq_true_eq, h3] at hcond
          exact ⟨fun _ => ⟨hcond.2.1, by omega⟩, fun _ => rfl⟩
        · rw [if_neg hcond]
          simp only [Bool.and_eq_true, decide_eq_true_eq, h3, not_and] at hcond
          constructor
          · intro h01
            exact absurd h01 (by omega)
          · intro hp
            exfalso
            have hor : 0 < or2 := by omega
            exact hcond hor hp.1 hor
  · intro hcle h
    unfold fdRecv at h
    cases hl : fdRecvLoop g gfuel rt r 0 false with
    | none =>
      rw [hl] at h
      cases h
    | some out =>
      rw [hl] at h
      obtain ⟨ost, os, oll, or2, owf⟩ := out
      obtain ⟨h1, h1b, h2, h2b, h3⟩ :=
        fdRecvLoop_spec g gfuel rt r 0 false ost os oll or2 owf hl
      dsimp only at h
      simp only [Option.some.injEq, Prod.mk.injEq] at h
      obtain ⟨-, hb, -, hd⟩ := h
      constructor
      · rw [← hd]
        split <;> omega
      · rw [← hd, ← hb]
        simp only [Bool.false_eq_true, false_or] at h3
        by_cases hcond : (decide (0 < or2) && owf) = true
        · rw [if_pos hcond]
          simp only [Bool.and_eq_true, decide_eq_true_eq, h3] at hcond
          exact ⟨fun _ => ⟨by omega, by omega⟩, fun _ => rfl⟩
        · rw [if_neg hcond]
          simp only [Bool.and_eq_true, decide_eq_true_eq, h3, not_and] at hcond
          constructor
          · intro h01
            exact absurd h01 (by omega)
          · intro hp
            exfalso
            have hor : 0 < or2 := by omega
            exact hcond hor (by omega) hor

/-- Closed-form instance of `fd_token_iff_transition`: a send into an empty
ring writes exactly one token, a recv from a full ring writes exactly one
token. -/
theorem fd_token_iff_transition_witness :
    ((1 : Nat) ≤ 1 ∧ ((1 : Nat) = 1 ↔ ((0 : Nat) = 0 ∧ (0 : Nat) < 1))) ∧
    ((1 : Nat) ≤ 1 ∧ ((1 : Nat) = 1 ↔ ((2 : Nat) = 2 ∧ (1 : Nat) < 2))) :=
  ⟨(fd_token_iff_transition 2 2 (fun (_ : Unit) _ => ((), 1, [(7 : Nat)], false))
      (fun (_ : Unit) _ => ((), 1, false)) () () (RingState.mk 2 [0, 0] 0 0 0)
      (RingState.mk 2 [4, 5] 2 0 0) () () (RingState.mk 2 [7, 0] 1 1 0)
      (RingState.mk 2 [4, 5] 1 0 1) 1 1 1 1).1 (by decide),
   (fd_token_iff_transition 2 2 (fun (_ : Unit) _ => ((), 1, [(7 : Nat)], false))
      (fun (_ : Unit) _ => ((), 1, false)) () () (RingState.mk 2 [0, 0] 0 0 0)
      (RingState.mk 2 [4, 5] 2 0 0) () () (RingState.mk 2 [7, 0] 1 1 0)
      (RingState.mk 2 [4, 5] 1 0 1) 1 1 1 1).2 (by decide) (by decide)⟩

end Fdringbuf
